import Mathlib

/-
Verification of the accident-clusters analysis endpoint (`src/app.py`).

The endpoint `analyze` parses the request parameters, filters the record
store by an inclusive date window, returns an all-zero empty result when no
record matches, converts the metric radius to radians, runs density-based
clustering (DBSCAN with a haversine metric) over the filtered coordinates,
and aggregates per-point labels plus summary statistics.

Modelling conventions:
- numbers are rationals (`float` arithmetic is modelled exactly over ℚ);
- timestamps are integers counting nanoseconds since the Unix epoch
  (the resolution of the `pandas` timestamps produced at load time);
  calendar dates arrive as the timestamp of that day's midnight, which is
  what `pd.to_datetime` yields on a `YYYY-MM-DD` string;
- the haversine distance on radian coordinates is a transcendental
  function, so the clustering is parametrised by an abstract distance
  `dist : Pt → Pt → ℚ`; no theorem below depends on which metric is used
  beyond the hypotheses it states (such as `dist a a = 0`);
- the clustering worklist is additionally parametrised by a frontier
  reordering `ρ` so that invariance of the output under the internal
  neighbor traversal order can be stated; the program itself is the
  identity instance `idReorder`.
-/

namespace AccidentClusters

/-- One row of the accidents table (`accidents.csv` as loaded at startup):
`latitude` and `longitude` in degrees, `date` a timestamp in nanoseconds. -/
structure Record where
  latitude : ℚ
  longitude : ℚ
  date : ℤ
deriving DecidableEq

/-- The JSON body of a request to `/api/analyze`: all four fields are
optional (`params.get` with defaults in the code). `startDate`/`endDate`
are calendar dates, represented by the timestamp of their midnight. -/
structure Params where
  epsilon : Option ℚ
  minPoints : Option ℤ
  startDate : Option ℤ
  endDate : Option ℤ

/-- One entry of the `points` list in the response (src/app.py lines 80-84). -/
structure PointOut where
  lat : ℚ
  lng : ℚ
  cluster : ℤ
deriving DecidableEq

/-- The `stats` object of the response (src/app.py lines 88-92). -/
structure Stats where
  total : ℕ
  n_clusters : ℕ
  noise : ℕ
deriving DecidableEq

/-- The whole response body of `/api/analyze`. -/
structure Output where
  points : List PointOut
  stats : Stats
deriving DecidableEq

/-- Modelled from the spec: the InvalidParameter error of the error-handling
design (spec section 7).  In the running system it is the parameter-validation
error raised by the clustering library's `fit` (src/app.py line 67) before the
ball-tree index is built; src/ itself contains no validation code. -/
inductive AnalyzeError where
  | invalidParameter
deriving DecidableEq

/-- Nanoseconds in one second. -/
def secNs : ℤ := 1000000000

/-- Nanoseconds in one day (`timedelta(days=1)`). -/
def dayNs : ℤ := 86400 * secNs

/-- Timestamp of `datetime(2025, 1, 1)` (src/app.py line 42). -/
def jan1_2025 : ℤ := 1735689600 * secNs

/-- Timestamp of `datetime(2025, 12, 31, 23, 59, 59)` (src/app.py line 43). -/
def dec31_2025_end : ℤ := jan1_2025 + 365 * dayNs - secNs

/-- `pd.to_datetime(end_str) + timedelta(days=1) - timedelta(seconds=1)`
(src/app.py line 40): the end bound moved to 23:59:59 of the same day. -/
def endAdjust (e : ℤ) : ℤ := e + dayNs - secNs

/-- The normalized inclusive window (src/app.py lines 35-43): both dates
given (`if start_str and end_str`) use the supplied window with the adjusted
end; otherwise the default full-2025 window. -/
def window (p : Params) : ℤ × ℤ :=
  match p.startDate, p.endDate with
  | some s, some e => (s, endAdjust e)
  | _, _ => (jan1_2025, dec31_2025_end)

/-- `df[(df['date'] >= start_date) & (df['date'] <= end_date)]`
(src/app.py lines 46-47): the order-preserving inclusive date filter. -/
def dateFilter (store : List Record) (w : ℤ × ℤ) : List Record :=
  store.filter fun r => decide (w.1 ≤ r.date) && decide (r.date ≤ w.2)

/-- `kms_per_radian = 6371.0088` (src/app.py line 62). -/
def kms_per_radian : ℚ := 6371.0088

/-- `epsilon_rad = (epsilon_meters / 1000.0) / kms_per_radian`
(src/app.py line 63). -/
def epsilon_rad (epsilon_meters : ℚ) : ℚ := (epsilon_meters / 1000) / kms_per_radian

/-- A coordinate pair handed to the clustering step. -/
abbrev Pt := ℚ × ℚ

/-- Modelled from the spec: the epsilon-neighborhood query of the GeoIndex
(spec section 4.2); in the running system this is the radius query of the
library's ball tree, code that is not in src/.  Indices `j` of all points of
`pts` within distance `eps` of point `i` (the query point itself included,
since its distance is 0). -/
def nbhdOf (dist : Pt → Pt → ℚ) (pts : List Pt) (eps : ℚ) (i : ℕ) : List ℕ :=
  (List.range pts.length).filter fun j =>
    decide (dist (pts.getD i (0, 0)) (pts.getD j (0, 0)) ≤ eps)

/-- Modelled from the spec: the core-point test of the DensityClusterer
(spec section 4.3): a point is core when its neighborhood, itself included,
has at least `minS` elements. -/
def coreOf (dist : Pt → Pt → ℚ) (pts : List Pt) (eps : ℚ) (minS : ℤ) (i : ℕ) : Bool :=
  decide (minS ≤ ((nbhdOf dist pts eps i).length : ℤ))

/-- Modelled from the spec: the frontier-expansion step of the
DensityClusterer (spec section 4.3, the worklist loop of the library's
`dbscan_inner`; src/ contains only the library call at line 66).  Pops the
worklist; an already-labeled point is skipped, an unlabeled point gets the
current cluster id `cid` and, when it is core, its neighborhood is pushed.
`ρ` reorders each pushed frontier (the program uses the identity); `fuel`
bounds the number of iterations and is chosen large enough below. -/
def expandR (nbhd : ℕ → List ℕ) (core : ℕ → Bool) (ρ : ℕ → List ℕ → List ℕ) (cid : ℤ) :
    ℕ → (ℕ → ℤ) → List ℕ → (ℕ → ℤ)
  | 0, labels, _ => labels
  | _ + 1, labels, [] => labels
  | fuel + 1, labels, v :: rest =>
    if labels v = -1 then
      expandR nbhd core ρ cid fuel (fun j => if j = v then cid else labels j)
        (if core v then ρ v (nbhd v) ++ rest else rest)
    else
      expandR nbhd core ρ cid fuel labels rest

/-- Modelled from the spec: the outer scan of the DensityClusterer
(spec section 4.3): points are visited in the filtered order; each point
that is still unlabeled and core seeds a new cluster with a monotonically
increasing id starting at 0.  Returns the final labels and the number of
clusters created. -/
def outerR (nbhd : ℕ → List ℕ) (core : ℕ → Bool) (ρ : ℕ → List ℕ → List ℕ) (fuel : ℕ) :
    List ℕ → (ℕ → ℤ) → ℤ → (ℕ → ℤ) × ℤ
  | [], labels, num => (labels, num)
  | i :: todo, labels, num =>
    if labels i = -1 ∧ core i then
      outerR nbhd core ρ fuel todo (expandR nbhd core ρ num fuel labels [i]) (num + 1)
    else
      outerR nbhd core ρ fuel todo labels num

/-- The full clustering run: final label function and number of clusters
created, starting from the all-unlabeled state (`-1` everywhere, the noise
sentinel) with cluster ids from 0.  The worklist fuel `n*n + n + 1` bounds
the measure `(n+1)*unlabeled + stack length`, so it never runs out. -/
def dbscanRun (dist : Pt → Pt → ℚ) (ρ : ℕ → List ℕ → List ℕ)
    (eps : ℚ) (minS : ℤ) (pts : List Pt) : (ℕ → ℤ) × ℤ :=
  outerR (nbhdOf dist pts eps) (coreOf dist pts eps minS) ρ
    (pts.length * pts.length + pts.length + 1) (List.range pts.length) (fun _ => -1) 0

/-- Modelled from the spec: the label array produced by the clustering call
`DBSCAN(eps, min_samples, algorithm='ball_tree', metric='haversine').fit`
(src/app.py lines 66-70): every point starts unlabeled (`-1`, the noise
sentinel) and the outer scan assigns cluster ids. -/
def dbscanLabelsR (dist : Pt → Pt → ℚ) (ρ : ℕ → List ℕ → List ℕ)
    (eps : ℚ) (minS : ℤ) (pts : List Pt) : List ℤ :=
  (List.range pts.length).map (dbscanRun dist ρ eps minS pts).1

/-- The identity frontier order: what the deterministic program uses. -/
def idReorder : ℕ → List ℕ → List ℕ := fun _ l => l

/-- The clustering-plus-aggregation step of `analyze` (src/app.py lines
55-93): build coordinates from the filtered records, run the clustering,
then package the per-point list and the statistics.  `n_clusters` is
`len(set(labels)) - (1 if -1 in labels else 0)` (line 74), `noise` is
`list(labels).count(-1)` (line 75), `total` is `len(filtered_df)` (line 89). -/
def clusterStepR (dist : Pt → Pt → ℚ) (ρ : ℕ → List ℕ → List ℕ)
    (epsRadVal : ℚ) (min_samples : ℤ) (filtered : List Record) : Output :=
  let lbls := dbscanLabelsR dist ρ epsRadVal min_samples
    (filtered.map fun r => (r.latitude, r.longitude))
  { points := (filtered.zip lbls).map fun rl =>
      { lat := rl.1.latitude, lng := rl.1.longitude, cluster := rl.2 },
    stats :=
      { total := filtered.length,
        n_clusters := lbls.toFinset.card - (if (-1 : ℤ) ∈ lbls then 1 else 0),
        noise := lbls.count (-1) } }

/-- `clusterStepR` at the program's own (identity) frontier order. -/
def clusterStep (dist : Pt → Pt → ℚ) (epsRadVal : ℚ) (min_samples : ℤ)
    (filtered : List Record) : Output :=
  clusterStepR dist idReorder epsRadVal min_samples filtered

/-- The request handler `analyze` (src/app.py lines 21-93), parametrised by
the metric and the frontier order: parse parameters with their defaults
(lines 26-27), normalize the window and filter (lines 35-47), return the
all-zero empty result when nothing matched (lines 49-53), otherwise run the
clustering call — which validates `eps > 0` and `min_samples ≥ 1` before
building its ball-tree index — and aggregate. -/
def analyzeR (dist : Pt → Pt → ℚ) (ρ : ℕ → List ℕ → List ℕ)
    (p : Params) (store : List Record) : Except AnalyzeError Output :=
  let epsilon_meters := p.epsilon.getD 50
  let min_samples := p.minPoints.getD 10
  let filtered := dateFilter store (window p)
  if filtered.length = 0 then
    Except.ok { points := [], stats := { total := 0, n_clusters := 0, noise := 0 } }
  else if epsilon_meters ≤ 0 ∨ min_samples < 1 then
    Except.error AnalyzeError.invalidParameter
  else
    Except.ok (clusterStepR dist ρ ((epsilon_meters / 1000) / kms_per_radian)
      min_samples filtered)

/-- The request handler itself: `analyzeR` at the identity frontier order. -/
def analyze (dist : Pt → Pt → ℚ) (p : Params) (store : List Record) :
    Except AnalyzeError Output :=
  analyzeR dist idReorder p store

/-- A point index is covered by the clustering when some core point has it
in its neighborhood, or it is itself core (the seed case).  The label
characterization below shows this decides noise vs non-noise. -/
def labeledCond (nbhd : ℕ → List ℕ) (core : ℕ → Bool) (n i : ℕ) : Prop :=
  ∃ q, q < n ∧ core q ∧ (i ∈ nbhd q ∨ i = q)

instance labeledCondDecidable (nbhd : ℕ → List ℕ) (core : ℕ → Bool) (n i : ℕ) :
    Decidable (labeledCond nbhd core n i) :=
  decidable_of_iff (∃ q ∈ List.range n, core q ∧ (i ∈ nbhd q ∨ i = q)) (by
    constructor
    · rintro ⟨q, hq, h⟩
      exact ⟨q, List.mem_range.mp hq, h⟩
    · rintro ⟨q, hq, h⟩
      exact ⟨q, List.mem_range.mpr hq, h⟩)

/-- Density-reachability from the seed `i` through points that were
unlabeled when the expansion started: the order-free description of the set
one call to `expandR` labels. -/
inductive Reach (nbhd : ℕ → List ℕ) (core : ℕ → Bool) (L0 : ℕ → ℤ) (i : ℕ) : ℕ → Prop where
  | seed : Reach nbhd core L0 i i
  | step (v j : ℕ) : Reach nbhd core L0 i v → L0 v = -1 → core v → j ∈ nbhd v →
      Reach nbhd core L0 i j

/-- Number of still-unlabeled indices below `n`: the termination measure of
the expansion worklist. -/
def unlabeledCount (n : ℕ) (L : ℕ → ℤ) : ℕ :=
  ((List.range n).filter fun j => decide (L j = -1)).length

/-- Postcondition bundle of one expansion: old labels survive, every change
writes `cid`, every labeled point is justified by a core point, labeled core
points have fully labeled neighborhoods, the whole worklist ends up labeled,
and labels stay in `{-1} ∪ [0, cid]`. -/
def ExpandOut (nbhd : ℕ → List ℕ) (core : ℕ → Bool) (n : ℕ) (cid : ℤ)
    (L E : ℕ → ℤ) (stack : List ℕ) : Prop :=
  (∀ j, L j ≠ -1 → E j = L j) ∧
  (∀ j, E j ≠ L j → E j = cid) ∧
  (∀ j, E j ≠ -1 → j < n ∧ labeledCond nbhd core n j) ∧
  (∀ v, v < n → core v = true → E v ≠ -1 → ∀ j ∈ nbhd v, E j ≠ -1) ∧
  (∀ j ∈ stack, E j ≠ -1) ∧
  (∀ j, E j = -1 ∨ (0 ≤ E j ∧ E j ≤ cid))

/-- Postcondition bundle of the outer scan: old labels survive, every core
point of the remaining scan list ends up labeled, every labeled point is
justified by a core point, labeled core points have fully labeled
neighborhoods, labels lie in `{-1} ∪ [0, final counter)`, every id below the
final counter is realized, and the counter never decreases. -/
def OuterOut (nbhd : ℕ → List ℕ) (core : ℕ → Bool) (n : ℕ)
    (L : ℕ → ℤ) (num : ℤ) (todo : List ℕ) (R : (ℕ → ℤ) × ℤ) : Prop :=
  (∀ j, L j ≠ -1 → R.1 j = L j) ∧
  (∀ i ∈ todo, core i = true → R.1 i ≠ -1) ∧
  (∀ j, R.1 j ≠ -1 → j < n ∧ labeledCond nbhd core n j) ∧
  (∀ v, v < n → core v = true → R.1 v ≠ -1 → ∀ j ∈ nbhd v, R.1 j ≠ -1) ∧
  (∀ j, R.1 j = -1 ∨ (0 ≤ R.1 j ∧ R.1 j < R.2)) ∧
  (∀ c : ℤ, 0 ≤ c → c < R.2 → ∃ j, j < n ∧ R.1 j = c) ∧
  num ≤ R.2

lemma length_filter_of_flip {v : ℕ} {l : List ℕ} (hv : v ∈ l) (hnd : l.Nodup)
    {p q : ℕ → Bool} (hpv : p v = true) (hqv : q v = false)
    (hagree : ∀ j ∈ l, j ≠ v → q j = p j) :
    (l.filter q).length + 1 = (l.filter p).length := by
  induction l with
  | nil => cases hv
  | cons a t ih =>
    rcases List.nodup_cons.mp hnd with ⟨hat, hndt⟩
    by_cases hav : a = v
    · subst hav
      have hq : (a :: t).filter q = t.filter q := by
        simp [List.filter_cons, hqv]
      have hp : (a :: t).filter p = a :: t.filter p := by
        simp [List.filter_cons, hpv]
      have hqt : t.filter q = t.filter p := by
        apply List.filter_congr
        intro j hj
        exact hagree j (List.mem_cons_of_mem _ hj) (fun hja => hat (hja ▸ hj))
      rw [hq, hp, hqt]
      simp
    · have hvt : v ∈ t := by
        rcases List.mem_cons.mp hv with h | h
        · exact absurd h.symm hav
        · exact h
      have haq : q a = p a := hagree a (List.mem_cons_self a t) hav
      have ihx := ih hvt hndt (fun j hj hjv => hagree j (List.mem_cons_of_mem _ hj) hjv)
      by_cases hpa : p a = true
      · have hqa : q a = true := by rw [haq]; exact hpa
        simp only [List.filter_cons, hpa, hqa, if_true, List.length_cons]
        omega
      · have hqa : q a = false := by rw [haq]; simpa using hpa
        simp only [List.filter_cons, hpa, hqa]
        simpa using ihx

lemma unlabeledCount_le (n : ℕ) (L : ℕ → ℤ) : unlabeledCount n L ≤ n := by
  have := List.length_filter_le (fun j => decide (L j = -1)) (List.range n)
  simpa [unlabeledCount] using this

lemma unlabeledCount_update {n v : ℕ} (hv : v < n) {L : ℕ → ℤ} (hLv : L v = -1)
    {c : ℤ} (hc : c ≠ -1) :
    unlabeledCount n (fun j => if j = v then c else L j) + 1 = unlabeledCount n L := by
  apply length_filter_of_flip (List.mem_range.mpr hv) (List.nodup_range n)
  · simpa using hLv
  · simpa using hc
  · intro j _ hjv
    simp [hjv]

lemma mem_nbhdOf {dist : Pt → Pt → ℚ} {pts : List Pt} {eps : ℚ} {i j : ℕ} :
    j ∈ nbhdOf dist pts eps i ↔
      j < pts.length ∧ dist (pts.getD i (0, 0)) (pts.getD j (0, 0)) ≤ eps := by
  simp [nbhdOf]

lemma nbhdOf_lt {dist : Pt → Pt → ℚ} {pts : List Pt} {eps : ℚ} {i j : ℕ}
    (h : j ∈ nbhdOf dist pts eps i) : j < pts.length :=
  (mem_nbhdOf.mp h).1

lemma nbhdOf_length_le (dist : Pt → Pt → ℚ) (pts : List Pt) (eps : ℚ) (i : ℕ) :
    (nbhdOf dist pts eps i).length ≤ pts.length := by
  have := List.length_filter_le
    (fun j => decide (dist (pts.getD i (0, 0)) (pts.getD j (0, 0)) ≤ eps))
    (List.range pts.length)
  simpa [nbhdOf] using this

lemma nbhdOf_mono {dist : Pt → Pt → ℚ} {pts : List Pt} {eps1 eps2 : ℚ}
    (h : eps1 ≤ eps2) (i : ℕ) {j : ℕ}
    (hj : j ∈ nbhdOf dist pts eps1 i) : j ∈ nbhdOf dist pts eps2 i := by
  rcases mem_nbhdOf.mp hj with ⟨h1, h2⟩
  exact mem_nbhdOf.mpr ⟨h1, le_trans h2 h⟩

lemma nbhdOf_length_mono {dist : Pt → Pt → ℚ} {pts : List Pt} {eps1 eps2 : ℚ}
    (h : eps1 ≤ eps2) (i : ℕ) :
    (nbhdOf dist pts eps1 i).length ≤ (nbhdOf dist pts eps2 i).length := by
  apply List.Sublist.length_le
  apply List.monotone_filter_right
  intro j hj
  have := le_trans (of_decide_eq_true hj) h
  exact decide_eq_true this

lemma coreOf_mono {dist : Pt → Pt → ℚ} {pts : List Pt} {eps1 eps2 : ℚ} {minS : ℤ}
    (h : eps1 ≤ eps2) (i : ℕ) (hc : coreOf dist pts eps1 minS i = true) :
    coreOf dist pts eps2 minS i = true := by
  have h1 := of_decide_eq_true hc
  apply decide_eq_true
  calc minS ≤ ((nbhdOf dist pts eps1 i).length : ℤ) := h1
    _ ≤ ((nbhdOf dist pts eps2 i).length : ℤ) := by
        exact_mod_cast nbhdOf_length_mono h i

lemma expandR_spec {n : ℕ} {nbhd : ℕ → List ℕ} {core : ℕ → Bool} {ρ : ℕ → List ℕ → List ℕ}
    (hρm : ∀ v l j, j ∈ ρ v l ↔ j ∈ l)
    (hρl : ∀ v l, (ρ v l).length = l.length)
    (hsub : ∀ v j, j ∈ nbhd v → j < n)
    (hlen : ∀ v, (nbhd v).length ≤ n)
    {cid : ℤ} (hcid : 0 ≤ cid) :
    ∀ (fuel : ℕ) (L : ℕ → ℤ) (stack : List ℕ),
      (n + 1) * unlabeledCount n L + stack.length ≤ fuel →
      (∀ j ∈ stack, j < n) →
      (∀ j ∈ stack, labeledCond nbhd core n j) →
      (∀ v, v < n → core v = true → L v ≠ -1 → ∀ j ∈ nbhd v, L j ≠ -1 ∨ j ∈ stack) →
      (∀ j, L j ≠ -1 → j < n ∧ labeledCond nbhd core n j) →
      (∀ j, L j = -1 ∨ (0 ≤ L j ∧ L j ≤ cid)) →
      ExpandOut nbhd core n cid L (expandR nbhd core ρ cid fuel L stack) stack := by
  intro fuel
  induction fuel with
  | zero =>
    intro L stack hfuel hstk hjust hinv hlab hrange
    have hstack : stack = [] := by
      have : stack.length = 0 := by omega
      exact List.length_eq_zero.mp this
    subst hstack
    refine ⟨fun j _ => rfl, fun j h => absurd rfl h, hlab, ?_, by simp, hrange⟩
    intro v hv hcv hLv j hj
    rcases hinv v hv hcv hLv j hj with h | h
    · exact h
    · cases h
  | succ fuel ih =>
    intro L stack hfuel hstk hjust hinv hlab hrange
    cases stack with
    | nil =>
      refine ⟨fun j _ => rfl, fun j h => absurd rfl h, hlab, ?_, by simp, hrange⟩
      intro v hv hcv hLv j hj
      rcases hinv v hv hcv hLv j hj with h | h
      · exact h
      · cases h
    | cons v rest =>
      have hvn : v < n := hstk v (List.mem_cons_self v rest)
      by_cases hLv : L v = -1
      · -- label v with cid, then push its neighborhood when it is core
        have hcne : cid ≠ -1 := by omega
        have hU := unlabeledCount_update hvn hLv hcne
        have e1 : (n + 1) * unlabeledCount n L =
            (n + 1) * unlabeledCount n (fun j => if j = v then cid else L j) + (n + 1) := by
          rw [← hU]; ring
        have hfuel1 : (n + 1) * unlabeledCount n (fun j => if j = v then cid else L j) +
            (if core v then ρ v (nbhd v) ++ rest else rest).length ≤ fuel := by
          have hst1 : (if core v then ρ v (nbhd v) ++ rest else rest).length ≤
              n + rest.length := by
            by_cases hcv : core v
            · simp only [if_pos hcv, List.length_append, hρl]
              have := hlen v
              omega
            · simp only [if_neg hcv]
              omega
          have hsl : (v :: rest).length = rest.length + 1 := by simp
          generalize hA : (n + 1) * unlabeledCount n (fun j => if j = v then cid else L j) = A
            at e1 hst1 ⊢
          generalize hB : (n + 1) * unlabeledCount n L = B at e1 hfuel
          omega
        have hmem1 : ∀ j, j ∈ (if core v then ρ v (nbhd v) ++ rest else rest) →
            (core v = true ∧ j ∈ nbhd v) ∨ j ∈ rest := by
          intro j hj
          by_cases hcv : core v
          · rw [if_pos hcv] at hj
            rcases List.mem_append.mp hj with h | h
            · exact Or.inl ⟨hcv, (hρm v (nbhd v) j).mp h⟩
            · exact Or.inr h
          · rw [if_neg hcv] at hj
            exact Or.inr hj
        have hmem2 : ∀ j, core v = true → j ∈ nbhd v →
            j ∈ (if core v then ρ v (nbhd v) ++ rest else rest) := by
          intro j hcv hj
          rw [if_pos hcv]
          exact List.mem_append.mpr (Or.inl ((hρm v (nbhd v) j).mpr hj))
        have hmem3 : ∀ j, j ∈ rest → j ∈ (if core v then ρ v (nbhd v) ++ rest else rest) := by
          intro j hj
          by_cases hcv : core v
          · rw [if_pos hcv]; exact List.mem_append.mpr (Or.inr hj)
          · rw [if_neg hcv]; exact hj
        have hjv : labeledCond nbhd core n v := hjust v (List.mem_cons_self v rest)
        obtain ⟨Ca, Cb, Cc, Cd, Ce, Cf⟩ := ih (fun j => if j = v then cid else L j)
          (if core v then ρ v (nbhd v) ++ rest else rest) hfuel1
          (by
            intro j hj
            rcases hmem1 j hj with ⟨hcv, hjn⟩ | hj2
            · exact hsub v j hjn
            · exact hstk j (List.mem_cons_of_mem v hj2))
          (by
            intro j hj
            rcases hmem1 j hj with ⟨hcv, hjn⟩ | hj2
            · exact ⟨v, hvn, hcv, Or.inl hjn⟩
            · exact hjust j (List.mem_cons_of_mem v hj2))
          (by
            intro w hw hcw hLw j hj
            by_cases hwv : w = v
            · subst hwv
              exact Or.inr (hmem2 j hcw hj)
            · have hLw2 : L w ≠ -1 := by
                intro h
                apply hLw
                simp [hwv, h]
              rcases hinv w hw hcw hLw2 j hj with h | h
              · left
                by_cases hjv2 : j = v
                · subst hjv2; simp [hcne]
                · simpa [hjv2] using h
              · rcases List.mem_cons.mp h with h2 | h2
                · subst h2
                  left; simp [hcne]
                · exact Or.inr (hmem3 j h2))
          (by
            intro j hj
            by_cases hjv2 : j = v
            · subst hjv2
              exact ⟨hvn, hjv⟩
            · have : L j ≠ -1 := by simpa [hjv2] using hj
              exact hlab j this)
          (by
            intro j
            by_cases hjv2 : j = v
            · subst hjv2; right; simp [hcid]
            · simpa [hjv2] using hrange j)
        simp only [expandR, if_pos hLv]
        refine ⟨?_, ?_, Cc, Cd, ?_, Cf⟩
        · intro k hLk
          have hkv : k ≠ v := fun h => hLk (h ▸ hLv)
          have hne : (if k = v then cid else L k) ≠ -1 := by simpa [hkv] using hLk
          rw [Ca k hne]
          simp [hkv]
        · intro k hk
          by_cases hE : expandR nbhd core ρ cid fuel (fun j => if j = v then cid else L j)
              (if core v then ρ v (nbhd v) ++ rest else rest) k =
              (if k = v then cid else L k)
          · rcases eq_or_ne k v with hkv | hkv
            · rw [hE, if_pos hkv]
            · rw [hE, if_neg hkv] at hk
              exact absurd rfl hk
          · exact Cb k hE
        · intro k hk
          rcases List.mem_cons.mp hk with h | h
          · have hne : (if k = v then cid else L k) ≠ -1 := by rw [if_pos h]; exact hcne
            rw [Ca k hne]
            simpa [h] using hcne
          · exact Ce k (hmem3 k h)
      · -- v is already labeled: skip it
        have hfuel1 : (n + 1) * unlabeledCount n L + rest.length ≤ fuel := by
          have hsl : (v :: rest).length = rest.length + 1 := by simp
          generalize hB : (n + 1) * unlabeledCount n L = B at hfuel ⊢
          omega
        obtain ⟨Ca, Cb, Cc, Cd, Ce, Cf⟩ := ih L rest hfuel1
          (fun j hj => hstk j (List.mem_cons_of_mem v hj))
          (fun j hj => hjust j (List.mem_cons_of_mem v hj))
          (by
            intro w hw hcw hLw j hj
            rcases hinv w hw hcw hLw j hj with h | h
            · exact Or.inl h
            · rcases List.mem_cons.mp h with h2 | h2
              · subst h2; exact Or.inl hLv
              · exact Or.inr h2)
          hlab hrange
        simp only [expandR, if_neg hLv]
        refine ⟨Ca, Cb, Cc, Cd, ?_, Cf⟩
        intro j hj
        rcases List.mem_cons.mp hj with h | h
        · subst h
          rw [Ca j hLv]
          exact hLv
        · exact Ce j h

lemma outerR_spec {n : ℕ} {nbhd : ℕ → List ℕ} {core : ℕ → Bool} {ρ : ℕ → List ℕ → List ℕ}
    (hρm : ∀ v l j, j ∈ ρ v l ↔ j ∈ l)
    (hρl : ∀ v l, (ρ v l).length = l.length)
    (hsub : ∀ v j, j ∈ nbhd v → j < n)
    (hlen : ∀ v, (nbhd v).length ≤ n)
    {fuel : ℕ} (hfuel : (n + 1) * n + 1 ≤ fuel) :
    ∀ (todo : List ℕ) (L : ℕ → ℤ) (num : ℤ),
      (∀ i ∈ todo, i < n) →
      (∀ j, L j ≠ -1 → j < n ∧ labeledCond nbhd core n j) →
      (∀ v, v < n → core v = true → L v ≠ -1 → ∀ j ∈ nbhd v, L j ≠ -1) →
      (∀ j, L j = -1 ∨ (0 ≤ L j ∧ L j < num)) →
      (∀ c : ℤ, 0 ≤ c → c < num → ∃ j, j < n ∧ L j = c) →
      0 ≤ num →
      OuterOut nbhd core n L num todo (outerR nbhd core ρ fuel todo L num) := by
  intro todo
  induction todo with
  | nil =>
    intro L num htodo hlab hclosed hrange hsurj hnum
    exact ⟨fun j _ => rfl, by simp, hlab, hclosed, hrange, hsurj, le_refl num⟩
  | cons i todo ih =>
    intro L num htodo hlab hclosed hrange hsurj hnum
    have hin : i < n := htodo i (List.mem_cons_self i todo)
    by_cases hcond : L i = -1 ∧ core i = true
    · -- seed a new cluster at i
      have hfuelE : (n + 1) * unlabeledCount n L + ([i] : List ℕ).length ≤ fuel := by
        have h1 : (n + 1) * unlabeledCount n L ≤ (n + 1) * n :=
          Nat.mul_le_mul_left (n + 1) (unlabeledCount_le n L)
        have h2 : ([i] : List ℕ).length = 1 := rfl
        generalize hA : (n + 1) * unlabeledCount n L = A at h1 ⊢
        generalize hB : (n + 1) * n = B at h1 hfuel
        omega
      obtain ⟨Ca, Cb, Cc, Cd, Ce, Cf⟩ := expandR_spec hρm hρl hsub hlen hnum fuel L [i]
        hfuelE
        (by intro j hj; rcases List.mem_cons.mp hj with h | h
            · exact h ▸ hin
            · cases h)
        (by intro j hj; rcases List.mem_cons.mp hj with h | h
            · exact ⟨i, hin, hcond.2, Or.inr h⟩
            · cases h)
        (by intro v hv hcv hLv j hj
            exact Or.inl (hclosed v hv hcv hLv j hj))
        hlab
        (by intro j
            rcases hrange j with h | h
            · exact Or.inl h
            · exact Or.inr ⟨h.1, le_of_lt h.2⟩)
      obtain ⟨Da, Db, Dc, Dd, De, Df, Dg⟩ := ih
        (expandR nbhd core ρ num fuel L [i]) (num + 1)
        (fun i2 hi2 => htodo i2 (List.mem_cons_of_mem i hi2))
        Cc Cd
        (by intro j
            rcases Cf j with h | h
            · exact Or.inl h
            · exact Or.inr ⟨h.1, by omega⟩)
        (by intro c hc0 hc1
            rcases lt_or_eq_of_le (Int.lt_add_one_iff.mp hc1) with hlt | heq
            · obtain ⟨j, hj, hLj⟩ := hsurj c hc0 hlt
              have hLne : L j ≠ -1 := by omega
              exact ⟨j, hj, by rw [Ca j hLne]; exact hLj⟩
            · refine ⟨i, hin, ?_⟩
              have hEi : expandR nbhd core ρ num fuel L [i] i ≠ -1 :=
                Ce i (List.mem_cons_self i [])
              have hEne : expandR nbhd core ρ num fuel L [i] i ≠ L i := by
                rw [hcond.1]; exact hEi
              rw [Cb i hEne, heq])
        (by omega)
      simp only [outerR, if_pos hcond]
      refine ⟨?_, ?_, Dc, Dd, De, Df, by omega⟩
      · intro j hLj
        have hEj : expandR nbhd core ρ num fuel L [i] j = L j := Ca j hLj
        rw [Da j (by rw [hEj]; exact hLj), hEj]
      · intro i2 hi2 hci2
        rcases List.mem_cons.mp hi2 with h | h
        · have hEi : expandR nbhd core ρ num fuel L [i] i2 ≠ -1 := by
            rw [h]
            exact Ce i (List.mem_cons_self i [])
          rw [Da i2 hEi]
          exact hEi
        · exact Db i2 h hci2
    · -- i is already labeled or not core: skip
      obtain ⟨Da, Db, Dc, Dd, De, Df, Dg⟩ := ih L num
        (fun i2 hi2 => htodo i2 (List.mem_cons_of_mem i hi2))
        hlab hclosed hrange hsurj hnum
      simp only [outerR, if_neg hcond]
      refine ⟨Da, ?_, Dc, Dd, De, Df, Dg⟩
      intro i2 hi2 hci2
      rcases List.mem_cons.mp hi2 with h | h
      · subst h
        have hLi : L i2 ≠ -1 := by
          intro hL
          exact hcond ⟨hL, hci2⟩
        rw [Da i2 hLi]
        exact hLi
      · exact Db i2 h hci2

lemma dbscanRun_spec (dist : Pt → Pt → ℚ) {ρ : ℕ → List ℕ → List ℕ}
    (hρm : ∀ v l j, j ∈ ρ v l ↔ j ∈ l)
    (hρl : ∀ v l, (ρ v l).length = l.length)
    (eps : ℚ) (minS : ℤ) (pts : List Pt) :
    OuterOut (nbhdOf dist pts eps) (coreOf dist pts eps minS) pts.length
      (fun _ => -1) 0 (List.range pts.length) (dbscanRun dist ρ eps minS pts) := by
  apply outerR_spec hρm hρl (fun v j hj => nbhdOf_lt hj) (nbhdOf_length_le dist pts eps)
  · have : (pts.length + 1) * pts.length + 1 = pts.length * pts.length + pts.length + 1 := by
      ring
    omega
  · intro i hi
    exact List.mem_range.mp hi
  · intro j hj
    exact absurd rfl hj
  · intro v _ _ hv
    exact absurd rfl hv
  · intro j
    exact Or.inl rfl
  · intro c hc0 hc1
    omega
  · exact le_refl 0

lemma dbscanRun_label_iff (dist : Pt → Pt → ℚ) {ρ : ℕ → List ℕ → List ℕ}
    (hρm : ∀ v l j, j ∈ ρ v l ↔ j ∈ l)
    (hρl : ∀ v l, (ρ v l).length = l.length)
    (eps : ℚ) (minS : ℤ) (pts : List Pt) {i : ℕ} (hi : i < pts.length) :
    (dbscanRun dist ρ eps minS pts).1 i = -1 ↔
      ¬ labeledCond (nbhdOf dist pts eps) (coreOf dist pts eps minS) pts.length i := by
  obtain ⟨Da, Db, Dc, Dd, De, Df, Dg⟩ := dbscanRun_spec dist hρm hρl eps minS pts
  constructor
  · intro hL hcond
    obtain ⟨q, hq, hcq, hor⟩ := hcond
    have hRq : (dbscanRun dist ρ eps minS pts).1 q ≠ -1 :=
      Db q (List.mem_range.mpr hq) hcq
    rcases hor with h | h
    · exact Dd q hq hcq hRq i h hL
    · rw [h] at hL
      exact hRq hL
  · intro hcond
    by_contra hL
    exact hcond (Dc i hL).2

lemma dbscanLabelsR_length (dist : Pt → Pt → ℚ) (ρ : ℕ → List ℕ → List ℕ)
    (eps : ℚ) (minS : ℤ) (pts : List Pt) :
    (dbscanLabelsR dist ρ eps minS pts).length = pts.length := by
  simp [dbscanLabelsR]

lemma dbscanLabelsR_count_noise {dist : Pt → Pt → ℚ} {ρ : ℕ → List ℕ → List ℕ}
    (hρm : ∀ v l j, j ∈ ρ v l ↔ j ∈ l)
    (hρl : ∀ v l, (ρ v l).length = l.length)
    (eps : ℚ) (minS : ℤ) (pts : List Pt) :
    (dbscanLabelsR dist ρ eps minS pts).count (-1) =
      (List.range pts.length).countP (fun i =>
        decide (¬ labeledCond (nbhdOf dist pts eps) (coreOf dist pts eps minS)
          pts.length i)) := by
  rw [dbscanLabelsR, List.count_eq_countP, List.countP_map]
  apply List.countP_congr
  intro i hi
  have hi2 := List.mem_range.mp hi
  have hiff := dbscanRun_label_iff dist hρm hρl eps minS pts hi2
  simp only [Function.comp_apply, beq_iff_eq, decide_eq_true_eq]
  exact hiff

lemma labeledCond_mono {dist : Pt → Pt → ℚ} {pts : List Pt} {eps1 eps2 : ℚ} {minS : ℤ}
    (h : eps1 ≤ eps2) (i : ℕ)
    (hc : labeledCond (nbhdOf dist pts eps1) (coreOf dist pts eps1 minS) pts.length i) :
    labeledCond (nbhdOf dist pts eps2) (coreOf dist pts eps2 minS) pts.length i := by
  obtain ⟨q, hq, hcq, hor⟩ := hc
  refine ⟨q, hq, coreOf_mono h q hcq, ?_⟩
  rcases hor with h2 | h2
  · exact Or.inl (nbhdOf_mono h q h2)
  · exact Or.inr h2

lemma dbscan_noise_mono {dist : Pt → Pt → ℚ} {ρ : ℕ → List ℕ → List ℕ}
    (hρm : ∀ v l j, j ∈ ρ v l ↔ j ∈ l)
    (hρl : ∀ v l, (ρ v l).length = l.length)
    {eps1 eps2 : ℚ} (h : eps1 ≤ eps2) (minS : ℤ) (pts : List Pt) :
    (dbscanLabelsR dist ρ eps2 minS pts).count (-1) ≤
      (dbscanLabelsR dist ρ eps1 minS pts).count (-1) := by
  rw [dbscanLabelsR_count_noise hρm hρl, dbscanLabelsR_count_noise hρm hρl]
  apply List.countP_mono_left
  intro i _ hdec
  have h2 := of_decide_eq_true hdec
  apply decide_eq_true
  intro hc1
  exact h2 (labeledCond_mono h i hc1)

lemma dbscan_noise_zero (dist : Pt → Pt → ℚ) {ρ : ℕ → List ℕ → List ℕ}
    (hρm : ∀ v l j, j ∈ ρ v l ↔ j ∈ l)
    (hρl : ∀ v l, (ρ v l).length = l.length)
    (hrefl : ∀ a, dist a a = 0) {eps : ℚ} (heps : 0 ≤ eps) {minS : ℤ} (hminS : minS ≤ 1)
    (pts : List Pt) :
    (dbscanLabelsR dist ρ eps minS pts).count (-1) = 0 := by
  rw [dbscanLabelsR_count_noise hρm hρl]
  apply List.countP_eq_zero.mpr
  intro i hi
  have hi2 := List.mem_range.mp hi
  simp only [decide_eq_true_eq, not_not]
  have hmem : i ∈ nbhdOf dist pts eps i := by
    apply mem_nbhdOf.mpr
    refine ⟨hi2, ?_⟩
    rw [hrefl]
    exact heps
  have hcore : coreOf dist pts eps minS i = true := by
    apply decide_eq_true
    have h1 : 1 ≤ (nbhdOf dist pts eps i).length := List.length_pos.mpr
      (List.ne_nil_of_mem hmem)
    have h2 : (1 : ℤ) ≤ ((nbhdOf dist pts eps i).length : ℤ) := by exact_mod_cast h1
    omega
  exact ⟨i, hi2, hcore, Or.inr rfl⟩

lemma dbscanLabelsR_clusters (dist : Pt → Pt → ℚ) {ρ : ℕ → List ℕ → List ℕ}
    (hρm : ∀ v l j, j ∈ ρ v l ↔ j ∈ l)
    (hρl : ∀ v l, (ρ v l).length = l.length)
    (eps : ℚ) (minS : ℤ) (pts : List Pt) :
    ∃ m : ℕ,
      (∀ x ∈ dbscanLabelsR dist ρ eps minS pts, x = -1 ∨ (0 ≤ x ∧ x < (m : ℤ))) ∧
      (∀ c : ℤ, 0 ≤ c → c < (m : ℤ) → c ∈ dbscanLabelsR dist ρ eps minS pts) ∧
      ((dbscanLabelsR dist ρ eps minS pts).toFinset.card -
        (if (-1 : ℤ) ∈ dbscanLabelsR dist ρ eps minS pts then 1 else 0) = m) := by
  obtain ⟨Da, Db, Dc, Dd, De, Df, Dg⟩ := dbscanRun_spec dist hρm hρl eps minS pts
  set R := dbscanRun dist ρ eps minS pts with hR
  refine ⟨R.2.toNat, ?_, ?_, ?_⟩
  case _ =>
    intro x hx
    rw [dbscanLabelsR] at hx
    obtain ⟨i, hi, hxi⟩ := List.mem_map.mp hx
    rcases De i with h | h
    · rw [hxi] at h
      exact Or.inl h
    · right
      have h1 : 0 ≤ R.1 i := h.1
      have h2 : R.1 i < R.2 := h.2
      have h0 : 0 ≤ R.2 := Dg
      have hx2 : R.1 i = x := hxi
      constructor
      · omega
      · omega
  case _ =>
    intro c hc0 hc1
    have hc2 : c < R.2 := by omega
    obtain ⟨j, hj, hLj⟩ := Df c hc0 hc2
    rw [dbscanLabelsR]
    exact List.mem_map.mpr ⟨j, List.mem_range.mpr hj, hLj⟩
  case _ =>
    set lb := dbscanLabelsR dist ρ eps minS pts with hlb
    have hmem_entries : ∀ x ∈ lb, x = -1 ∨ (0 ≤ x ∧ x < R.2) := by
      intro x hx
      rw [hlb, dbscanLabelsR] at hx
      obtain ⟨i, hi, hxi⟩ := List.mem_map.mp hx
      rw [← hxi]
      exact De i
    have hsurj : ∀ c : ℤ, 0 ≤ c → c < R.2 → c ∈ lb := by
      intro c hc0 hc2
      obtain ⟨j, hj, hLj⟩ := Df c hc0 hc2
      rw [hlb, dbscanLabelsR]
      exact List.mem_map.mpr ⟨j, List.mem_range.mpr hj, hLj⟩
    have h0 : 0 ≤ R.2 := Dg
    have herase : lb.toFinset.erase (-1) =
        Finset.image (fun k : ℕ => (k : ℤ)) (Finset.range R.2.toNat) := by
      apply Finset.ext
      intro x
      constructor
      · intro hx
        have hxne : x ≠ -1 := Finset.ne_of_mem_erase hx
        have hxlb : x ∈ lb := List.mem_toFinset.mp (Finset.mem_of_mem_erase hx)
        rcases hmem_entries x hxlb with h | h
        · exact absurd h hxne
        · apply Finset.mem_image.mpr
          refine ⟨x.toNat, ?_, ?_⟩
          · apply Finset.mem_range.mpr
            omega
          · omega
      · intro hx
        obtain ⟨k, hk, hkx⟩ := Finset.mem_image.mp hx
        have hk2 := Finset.mem_range.mp hk
        have hc0 : (0 : ℤ) ≤ (k : ℤ) := Int.natCast_nonneg k
        have hc1 : (k : ℤ) < R.2 := by omega
        apply Finset.mem_erase.mpr
        constructor
        · omega
        · exact List.mem_toFinset.mpr (hkx ▸ hsurj (k : ℤ) hc0 hc1)
    have hcard : (lb.toFinset.erase (-1)).card = R.2.toNat := by
      rw [herase, Finset.card_image_of_injective _ (fun a b h => by exact_mod_cast h),
        Finset.card_range]
    by_cases hmem : (-1 : ℤ) ∈ lb
    · have hmemF : (-1 : ℤ) ∈ lb.toFinset := List.mem_toFinset.mpr hmem
      rw [if_pos hmem]
      have := Finset.card_erase_of_mem hmemF
      omega
    · have hmemF : (-1 : ℤ) ∉ lb.toFinset := fun h => hmem (List.mem_toFinset.mp h)
      rw [if_neg hmem]
      rw [Finset.erase_eq_of_not_mem hmemF] at hcard
      omega

lemma reach_lt {n : ℕ} {nbhd : ℕ → List ℕ} {core : ℕ → Bool} {L0 : ℕ → ℤ} {i0 : ℕ}
    (hsub : ∀ v j, j ∈ nbhd v → j < n) (hi0 : i0 < n) :
    ∀ j, Reach nbhd core L0 i0 j → j < n := by
  intro j h
  induction h with
  | seed => exact hi0
  | step v j2 hv hL0 hcv hjn ihv => exact hsub v j2 hjn

lemma expandR_sound {nbhd : ℕ → List ℕ} {core : ℕ → Bool} {ρ : ℕ → List ℕ → List ℕ}
    (hρm : ∀ v l j, j ∈ ρ v l ↔ j ∈ l) {L0 : ℕ → ℤ} {i0 : ℕ} {cid : ℤ} :
    ∀ (fuel : ℕ) (L : ℕ → ℤ) (stack : List ℕ),
      (∀ j ∈ stack, Reach nbhd core L0 i0 j) →
      (∀ j, L0 j ≠ -1 → L j = L0 j) →
      (∀ j, L j ≠ L0 j → Reach nbhd core L0 i0 j) →
      ∀ j, expandR nbhd core ρ cid fuel L stack j ≠ L0 j → Reach nbhd core L0 i0 j := by
  intro fuel
  induction fuel with
  | zero =>
    intro L stack hstk hkeep hchg j hj
    exact hchg j hj
  | succ fuel ih =>
    intro L stack hstk hkeep hchg
    cases stack with
    | nil => exact hchg
    | cons v rest =>
      have hrv : Reach nbhd core L0 i0 v := hstk v (List.mem_cons_self v rest)
      by_cases hLv : L v = -1
      · have hL0v : L0 v = -1 := by
          by_contra h
          rw [hkeep v h] at hLv
          exact h hLv
        simp only [expandR, if_pos hLv]
        apply ih
        · intro j hj
          rcases (by
              by_cases hcv : core v
              · rw [if_pos hcv] at hj
                rcases List.mem_append.mp hj with h | h
                · exact Or.inl ⟨hcv, (hρm v (nbhd v) j).mp h⟩
                · exact Or.inr h
              · rw [if_neg hcv] at hj
                exact Or.inr hj :
              (core v = true ∧ j ∈ nbhd v) ∨ j ∈ rest) with ⟨hcv, hjn⟩ | hj2
          · exact Reach.step v j hrv hL0v hcv hjn
          · exact hstk j (List.mem_cons_of_mem v hj2)
        · intro j hj
          have hjv : j ≠ v := fun h => hj (h ▸ hL0v)
          simp only [hjv, if_neg hjv]
          exact hkeep j hj
        · intro j hj
          by_cases hjv : j = v
          · exact hjv ▸ hrv
          · simp only [if_neg hjv] at hj
            exact hchg j hj
      · simp only [expandR, if_neg hLv]
        apply ih
        · exact fun j hj => hstk j (List.mem_cons_of_mem v hj)
        · exact hkeep
        · exact hchg

lemma reach_labeled {n : ℕ} {nbhd : ℕ → List ℕ} {core : ℕ → Bool} {L0 E : ℕ → ℤ} {i0 : ℕ}
    (hsub : ∀ v j, j ∈ nbhd v → j < n) (hi0 : i0 < n)
    (hseed : E i0 ≠ -1)
    (hclosed : ∀ v, v < n → core v = true → E v ≠ -1 → ∀ j ∈ nbhd v, E j ≠ -1) :
    ∀ j, Reach nbhd core L0 i0 j → E j ≠ -1 := by
  intro j h
  induction h with
  | seed => exact hseed
  | step v j2 hv hL0 hcv hjn ihv =>
    exact hclosed v (reach_lt hsub hi0 v hv) hcv ihv j2 hjn

/-- The pointwise result of one seeded expansion is fully determined by the
density-reachability relation: old labels survive, reachable points get
`cid`, unreachable points stay unlabeled.  The frontier order `ρ` does not
appear in the right-hand sides. -/
lemma expandR_canonical {n : ℕ} {nbhd : ℕ → List ℕ} {core : ℕ → Bool}
    {ρ : ℕ → List ℕ → List ℕ}
    (hρm : ∀ v l j, j ∈ ρ v l ↔ j ∈ l)
    (hρl : ∀ v l, (ρ v l).length = l.length)
    (hsub : ∀ v j, j ∈ nbhd v → j < n)
    (hlen : ∀ v, (nbhd v).length ≤ n)
    {cid : ℤ} (hcid : 0 ≤ cid)
    {fuel : ℕ} {L : ℕ → ℤ} {i : ℕ}
    (hfuelE : (n + 1) * unlabeledCount n L + 1 ≤ fuel)
    (hin : i < n) (hLi : L i = -1) (hci : core i = true)
    (hlab : ∀ j, L j ≠ -1 → j < n ∧ labeledCond nbhd core n j)
    (hclosed : ∀ v, v < n → core v = true → L v ≠ -1 → ∀ j ∈ nbhd v, L j ≠ -1)
    (hrange : ∀ j, L j = -1 ∨ (0 ≤ L j ∧ L j ≤ cid)) :
    ∀ j, (L j ≠ -1 → expandR nbhd core ρ cid fuel L [i] j = L j) ∧
      (L j = -1 → Reach nbhd core L i j → expandR nbhd core ρ cid fuel L [i] j = cid) ∧
      (L j = -1 → ¬ Reach nbhd core L i j →
        expandR nbhd core ρ cid fuel L [i] j = -1) := by
  obtain ⟨Ca, Cb, Cc, Cd, Ce, Cf⟩ := expandR_spec hρm hρl hsub hlen hcid fuel L [i]
    (by simpa using hfuelE)
    (by intro j hj
        rcases List.mem_cons.mp hj with h | h
        · exact h ▸ hin
        · cases h)
    (by intro j hj
        rcases List.mem_cons.mp hj with h | h
        · exact ⟨i, hin, hci, Or.inr h⟩
        · cases h)
    (by intro v hv hcv hLv j hj
        exact Or.inl (hclosed v hv hcv hLv j hj))
    hlab hrange
  intro j
  refine ⟨Ca j, ?_, ?_⟩
  · intro hLj hreach
    have hEi : expandR nbhd core ρ cid fuel L [i] i ≠ -1 := Ce i (List.mem_cons_self i [])
    have hEj : expandR nbhd core ρ cid fuel L [i] j ≠ -1 :=
      reach_labeled hsub hin hEi Cd j hreach
    apply Cb
    rw [hLj]
    exact hEj
  · intro hLj hreach
    by_contra hEj
    apply hreach
    apply expandR_sound hρm fuel L [i]
      (by intro j2 hj2
          rcases List.mem_cons.mp hj2 with h | h
          · exact h ▸ Reach.seed
          · cases h)
      (fun j2 _ => rfl)
      (fun j2 h => absurd rfl h)
    rw [hLj]
    exact hEj

lemma outerR_congr {n : ℕ} {nbhd : ℕ → List ℕ} {core : ℕ → Bool}
    {ρ1 ρ2 : ℕ → List ℕ → List ℕ}
    (hρm1 : ∀ v l j, j ∈ ρ1 v l ↔ j ∈ l)
    (hρl1 : ∀ v l, (ρ1 v l).length = l.length)
    (hρm2 : ∀ v l j, j ∈ ρ2 v l ↔ j ∈ l)
    (hρl2 : ∀ v l, (ρ2 v l).length = l.length)
    (hsub : ∀ v j, j ∈ nbhd v → j < n)
    (hlen : ∀ v, (nbhd v).length ≤ n)
    {fuel : ℕ} (hfuel : (n + 1) * n + 1 ≤ fuel) :
    ∀ (todo : List ℕ) (L : ℕ → ℤ) (num : ℤ),
      (∀ i ∈ todo, i < n) →
      (∀ j, L j ≠ -1 → j < n ∧ labeledCond nbhd core n j) →
      (∀ v, v < n → core v = true → L v ≠ -1 → ∀ j ∈ nbhd v, L j ≠ -1) →
      (∀ j, L j = -1 ∨ (0 ≤ L j ∧ L j < num)) →
      (∀ c : ℤ, 0 ≤ c → c < num → ∃ j, j < n ∧ L j = c) →
      0 ≤ num →
      outerR nbhd core ρ1 fuel todo L num = outerR nbhd core ρ2 fuel todo L num := by
  intro todo
  induction todo with
  | nil =>
    intro L num _ _ _ _ _ _
    rfl
  | cons i todo ih =>
    intro L num htodo hlab hclosed hrange hsurj hnum
    have hin : i < n := htodo i (List.mem_cons_self i todo)
    by_cases hcond : L i = -1 ∧ core i = true
    · have hfuelE : (n + 1) * unlabeledCount n L + 1 ≤ fuel := by
        have h1 : (n + 1) * unlabeledCount n L ≤ (n + 1) * n :=
          Nat.mul_le_mul_left (n + 1) (unlabeledCount_le n L)
        generalize hA : (n + 1) * unlabeledCount n L = A at h1 ⊢
        generalize hB : (n + 1) * n = B at h1 hfuel
        omega
      have hrange2 : ∀ j, L j = -1 ∨ (0 ≤ L j ∧ L j ≤ num) := by
        intro j
        rcases hrange j with h | h
        · exact Or.inl h
        · exact Or.inr ⟨h.1, le_of_lt h.2⟩
      have hcan1 := expandR_canonical hρm1 hρl1 hsub hlen hnum hfuelE hin hcond.1 hcond.2
        hlab hclosed hrange2
      have hcan2 := expandR_canonical hρm2 hρl2 hsub hlen hnum hfuelE hin hcond.1 hcond.2
        hlab hclosed hrange2
      have hEeq : expandR nbhd core ρ1 num fuel L [i] =
          expandR nbhd core ρ2 num fuel L [i] := by
        funext j
        obtain ⟨h1a, h1b, h1c⟩ := hcan1 j
        obtain ⟨h2a, h2b, h2c⟩ := hcan2 j
        by_cases hLj : L j = -1
        · by_cases hreach : Reach nbhd core L i j
          · rw [h1b hLj hreach, h2b hLj hreach]
          · rw [h1c hLj hreach, h2c hLj hreach]
        · rw [h1a hLj, h2a hLj]
      obtain ⟨Ca, Cb, Cc, Cd, Ce, Cf⟩ := expandR_spec hρm1 hρl1 hsub hlen hnum fuel L [i]
        (by simpa using hfuelE)
        (by intro j hj
            rcases List.mem_cons.mp hj with h | h
            · exact h ▸ hin
            · cases h)
        (by intro j hj
            rcases List.mem_cons.mp hj with h | h
            · exact ⟨i, hin, hcond.2, Or.inr h⟩
            · cases h)
        (by intro v hv hcv hLv j hj
            exact Or.inl (hclosed v hv hcv hLv j hj))
        hlab hrange2
      simp only [outerR, if_pos hcond]
      rw [← hEeq]
      apply ih
      · exact fun i2 hi2 => htodo i2 (List.mem_cons_of_mem i hi2)
      · exact Cc
      · exact Cd
      · intro j
        rcases Cf j with h | h
        · exact Or.inl h
        · exact Or.inr ⟨h.1, by omega⟩
      · intro c hc0 hc1
        rcases lt_or_eq_of_le (Int.lt_add_one_iff.mp hc1) with hlt | heq
        · obtain ⟨j, hj, hLj⟩ := hsurj c hc0 hlt
          have hLne : L j ≠ -1 := by omega
          exact ⟨j, hj, by rw [Ca j hLne]; exact hLj⟩
        · refine ⟨i, hin, ?_⟩
          have hEi : expandR nbhd core ρ1 num fuel L [i] i ≠ -1 :=
            Ce i (List.mem_cons_self i [])
          have hEne : expandR nbhd core ρ1 num fuel L [i] i ≠ L i := by
            rw [hcond.1]; exact hEi
          rw [Cb i hEne, heq]
      · omega
    · simp only [outerR, if_neg hcond]
      exact ih L num (fun i2 hi2 => htodo i2 (List.mem_cons_of_mem i hi2))
        hlab hclosed hrange hsurj hnum

lemma analyzeR_empty {dist : Pt → Pt → ℚ} {ρ : ℕ → List ℕ → List ℕ} {p : Params}
    {store : List Record} (h : dateFilter store (window p) = []) :
    analyzeR dist ρ p store =
      Except.ok { points := [], stats := { total := 0, n_clusters := 0, noise := 0 } } := by
  rw [analyzeR, h]
  rfl

lemma analyzeR_invalid {dist : Pt → Pt → ℚ} {ρ : ℕ → List ℕ → List ℕ} {p : Params}
    {store : List Record} (h : dateFilter store (window p) ≠ [])
    (h2 : p.epsilon.getD 50 ≤ 0 ∨ p.minPoints.getD 10 < 1) :
    analyzeR dist ρ p store = Except.error AnalyzeError.invalidParameter := by
  rw [analyzeR]
  have hlen : ¬(dateFilter store (window p)).length = 0 := by
    intro hc
    exact h (List.length_eq_zero.mp hc)
  rw [if_neg hlen, if_pos h2]

lemma analyzeR_run {dist : Pt → Pt → ℚ} {ρ : ℕ → List ℕ → List ℕ} {p : Params}
    {store : List Record} (h : dateFilter store (window p) ≠ [])
    (h2 : 0 < p.epsilon.getD 50) (h3 : 1 ≤ p.minPoints.getD 10) :
    analyzeR dist ρ p store = Except.ok (clusterStepR dist ρ
      ((p.epsilon.getD 50 / 1000) / kms_per_radian) (p.minPoints.getD 10)
      (dateFilter store (window p))) := by
  rw [analyzeR]
  have hlen : ¬(dateFilter store (window p)).length = 0 := by
    intro hc
    exact h (List.length_eq_zero.mp hc)
  have hval : ¬(p.epsilon.getD 50 ≤ 0 ∨ p.minPoints.getD 10 < 1) := by
    push_neg
    exact ⟨h2, h3⟩
  rw [if_neg hlen, if_neg hval]

lemma analyzeR_ok_cases {dist : Pt → Pt → ℚ} {ρ : ℕ → List ℕ → List ℕ} {p : Params}
    {store : List Record} {r : Output} (h : analyzeR dist ρ p store = Except.ok r) :
    (dateFilter store (window p) = [] ∧
      r = { points := [], stats := { total := 0, n_clusters := 0, noise := 0 } }) ∨
    (dateFilter store (window p) ≠ [] ∧ 0 < p.epsilon.getD 50 ∧
      1 ≤ p.minPoints.getD 10 ∧
      r = clusterStepR dist ρ ((p.epsilon.getD 50 / 1000) / kms_per_radian)
        (p.minPoints.getD 10) (dateFilter store (window p))) := by
  by_cases hf : dateFilter store (window p) = []
  · left
    refine ⟨hf, ?_⟩
    rw [analyzeR_empty hf] at h
    exact (Except.ok.inj h).symm
  · right
    by_cases hval : p.epsilon.getD 50 ≤ 0 ∨ p.minPoints.getD 10 < 1
    · rw [analyzeR_invalid hf hval] at h
      cases h
    · push_neg at hval
      refine ⟨hf, hval.1, hval.2, ?_⟩
      rw [analyzeR_run hf hval.1 hval.2] at h
      exact (Except.ok.inj h).symm

lemma clusterStepR_points_cluster (dist : Pt → Pt → ℚ) (ρ : ℕ → List ℕ → List ℕ)
    (ev : ℚ) (ms : ℤ) (filtered : List Record) :
    (clusterStepR dist ρ ev ms filtered).points.map PointOut.cluster =
      dbscanLabelsR dist ρ ev ms (filtered.map fun r => (r.latitude, r.longitude)) := by
  rw [clusterStepR]
  have hlen : (dbscanLabelsR dist ρ ev ms
      (filtered.map fun r => (r.latitude, r.longitude))).length ≤ filtered.length := by
    rw [dbscanLabelsR_length]
    simp
  calc ((filtered.zip (dbscanLabelsR dist ρ ev ms
          (filtered.map fun r => (r.latitude, r.longitude)))).map fun rl =>
          ({ lat := rl.1.latitude, lng := rl.1.longitude, cluster := rl.2 } : PointOut)).map
          PointOut.cluster
      = (filtered.zip (dbscanLabelsR dist ρ ev ms
          (filtered.map fun r => (r.latitude, r.longitude)))).map Prod.snd := by
        rw [List.map_map]
        rfl
    _ = _ := List.map_snd_zip _ _ hlen

lemma clusterStepR_points_length (dist : Pt → Pt → ℚ) (ρ : ℕ → List ℕ → List ℕ)
    (ev : ℚ) (ms : ℤ) (filtered : List Record) :
    (clusterStepR dist ρ ev ms filtered).points.length = filtered.length := by
  have := clusterStepR_points_cluster dist ρ ev ms filtered
  have h2 : ((clusterStepR dist ρ ev ms filtered).points.map PointOut.cluster).length =
      (clusterStepR dist ρ ev ms filtered).points.length := List.length_map _ _
  rw [this] at h2
  rw [← h2, dbscanLabelsR_length]
  simp

lemma distinct_nonsentinel_card (l : List ℤ) :
    ((l.filter fun x => decide (x ≠ -1)).toFinset.card) =
      l.toFinset.card - (if (-1 : ℤ) ∈ l then 1 else 0) := by
  have h1 : (l.filter fun x => decide (x ≠ -1)).toFinset =
      l.toFinset.filter (fun x => x ≠ -1) := by
    rw [List.toFinset_filter]
    apply Finset.filter_congr
    intro x _
    simp
  rw [h1, Finset.filter_ne']
  by_cases hm : (-1 : ℤ) ∈ l
  · rw [if_pos hm, Finset.card_erase_of_mem (List.mem_toFinset.mpr hm)]
  · rw [if_neg hm, Finset.erase_eq_of_not_mem (fun h => hm (List.mem_toFinset.mp h))]
    simp

/-- Claim C1 (counterexample): with an empty date window, `analyze` returns the
empty result even though `epsilon = -1 < 0`: no InvalidParameter rejection
happens before the (skipped) clustering step. -/
theorem claim_C1_counterexample :
    (⟨some (-1), some 10, some 0, some 0⟩ : Params).epsilon = some (-1) ∧ ((-1 : ℚ) < 0) ∧
    analyze (fun _ _ => 0) ⟨some (-1), some 10, some 0, some 0⟩ [] =
      Except.ok { points := [], stats := { total := 0, n_clusters := 0, noise := 0 } } ∧
    analyze (fun _ _ => 0) ⟨some (-1), some 10, some 0, some 0⟩ [] ≠
      Except.error AnalyzeError.invalidParameter := by
  refine ⟨rfl, by norm_num, rfl, ?_⟩
  intro h
  rw [show analyze (fun _ _ => 0) ⟨some (-1), some 10, some 0, some 0⟩ [] =
    Except.ok { points := [], stats := { total := 0, n_clusters := 0, noise := 0 } } from rfl] at h
  cases h

/-- Claim C1 (amended): parameter validation happens inside the clustering
call, after date filtering: an empty filtered set short-circuits to the empty
result with no validation at all; a non-empty filtered set rejects
`epsilon ≤ 0` (zero included) or `minSamples < 1` with InvalidParameter and
produces nothing else; valid parameters never raise it. -/
theorem claim_C1 (dist : Pt → Pt → ℚ) (p : Params) (store : List Record) :
    (dateFilter store (window p) = [] →
      analyze dist p store =
        Except.ok { points := [], stats := { total := 0, n_clusters := 0, noise := 0 } }) ∧
    (dateFilter store (window p) ≠ [] →
      (p.epsilon.getD 50 ≤ 0 ∨ p.minPoints.getD 10 < 1) →
      analyze dist p store = Except.error AnalyzeError.invalidParameter) ∧
    (dateFilter store (window p) ≠ [] →
      0 < p.epsilon.getD 50 → 1 ≤ p.minPoints.getD 10 →
      ∃ r : Output, analyze dist p store = Except.ok r) :=
  ⟨fun h => analyzeR_empty h,
   fun h h2 => analyzeR_invalid h h2,
   fun h h2 h3 => ⟨_, analyzeR_run h h2 h3⟩⟩

/-- Claim C1 (witness): a non-empty filtered set with `epsilon = -1` is
rejected with InvalidParameter. -/
theorem claim_C1_witness :
    analyze (fun _ _ => 0) ⟨some (-1), some 10, some 0, some 0⟩ [⟨0, 0, 5⟩] =
      Except.error AnalyzeError.invalidParameter :=
  (claim_C1 (fun _ _ => 0) ⟨some (-1), some 10, some 0, some 0⟩ [⟨0, 0, 5⟩]).2.1
    (by norm_num [dateFilter, window, endAdjust, dayNs, secNs])
    (Or.inl (by norm_num))



/-- Claim C2 (counterexample): a record timestamped in the last nanosecond of
the endDate day (23:59:59.999999999) lies on that calendar day and after the
start bound, yet date filtering drops it: the adjusted end bound is only
23:59:59. -/
theorem claim_C2_counterexample :
    ((0 : ℤ) ≤ (⟨0, 0, dayNs - 1⟩ : Record).date ∧
      (⟨0, 0, dayNs - 1⟩ : Record).date < 0 + dayNs) ∧
    dateFilter [⟨0, 0, dayNs - 1⟩] (window ⟨some 50, some 10, some 0, some 0⟩) = [] ∧
    analyze (fun _ _ => 0) ⟨some 50, some 10, some 0, some 0⟩ [⟨0, 0, dayNs - 1⟩] =
      Except.ok { points := [], stats := { total := 0, n_clusters := 0, noise := 0 } } := by
  refine ⟨by norm_num [dayNs, secNs], rfl, rfl⟩

/-- Claim C2 (amended): with both calendar dates supplied, a record of the
store is kept by date filtering exactly when its timestamp is between the
start midnight and 23:59:59 (inclusive, to the second) of the end day;
instants of the end day later than 23:59:59 are dropped. -/
theorem claim_C2 (p : Params) (store : List Record) (s e : ℤ) (r : Record)
    (hs : p.startDate = some s) (he : p.endDate = some e) (hr : r ∈ store) :
    r ∈ dateFilter store (window p) ↔ (s ≤ r.date ∧ r.date ≤ e + dayNs - secNs) := by
  have hw : window p = (s, endAdjust e) := by
    unfold window
    rw [hs, he]
  rw [hw, dateFilter]
  constructor
  · intro h
    have h2 := (List.mem_filter.mp h).2
    simp only [Bool.and_eq_true, decide_eq_true_eq] at h2
    exact ⟨h2.1, by have := h2.2; simp only [endAdjust] at this; omega⟩
  · intro h
    apply List.mem_filter.mpr
    refine ⟨hr, ?_⟩
    simp only [Bool.and_eq_true, decide_eq_true_eq, endAdjust]
    exact ⟨h.1, by omega⟩

/-- Claim C2 (witness): a record at 23:59:59 exactly of the end day is kept. -/
theorem claim_C2_witness :
    (⟨0, 0, dayNs - secNs⟩ : Record) ∈
      dateFilter [⟨0, 0, dayNs - secNs⟩] (window ⟨some 50, some 10, some 0, some 0⟩) :=
  (claim_C2 ⟨some 50, some 10, some 0, some 0⟩ [⟨0, 0, dayNs - secNs⟩] 0 0
    ⟨0, 0, dayNs - secNs⟩ rfl rfl (List.mem_singleton.mpr rfl)).mpr
    (by norm_num [dayNs, secNs])

/-- Claim C3: a window that is empty after normalization — reversed bounds or
no record inside it — yields the all-zero empty result, not an error. -/
theorem claim_C3 (dist : Pt → Pt → ℚ) (p : Params) (store : List Record)
    (h : (window p).2 < (window p).1 ∨
      ∀ r ∈ store, ¬((window p).1 ≤ r.date ∧ r.date ≤ (window p).2)) :
    analyze dist p store =
      Except.ok { points := [], stats := { total := 0, n_clusters := 0, noise := 0 } } := by
  apply analyzeR_empty
  rw [dateFilter]
  apply List.filter_eq_nil_iff.mpr
  intro r hr
  simp only [Bool.and_eq_true, decide_eq_true_eq, not_and]
  intro h1 h2
  rcases h with hlt | hall
  · omega
  · exact hall r hr ⟨h1, h2⟩

/-- Claim C3 (witness): start bound one day after the end bound, one record in
the store: empty result. -/
theorem claim_C3_witness :
    analyze (fun _ _ => 0) ⟨some 50, some 10, some dayNs, some 0⟩ [⟨0, 0, 100⟩] =
      Except.ok { points := [], stats := { total := 0, n_clusters := 0, noise := 0 } } :=
  claim_C3 (fun _ _ => 0) ⟨some 50, some 10, some dayNs, some 0⟩ [⟨0, 0, 100⟩]
    (Or.inl (by norm_num [window, endAdjust, dayNs, secNs]))

/-- Claim C4: the radius handed to the clustering step is exactly
`(epsilonMeters / 1000) / 6371.0088` radians, the mean-Earth-radius
conversion. -/
theorem claim_C4 (dist : Pt → Pt → ℚ) (p : Params) (store : List Record)
    (h1 : dateFilter store (window p) ≠ [])
    (h2 : 0 < p.epsilon.getD 50) (h3 : 1 ≤ p.minPoints.getD 10) :
    analyze dist p store = Except.ok (clusterStep dist
      ((p.epsilon.getD 50 / 1000) / (6371.0088 : ℚ))
      (p.minPoints.getD 10) (dateFilter store (window p))) ∧
    epsilon_rad (p.epsilon.getD 50) = (p.epsilon.getD 50 / 1000) / (6371.0088 : ℚ) := by
  constructor
  · rw [analyze]
    rw [analyzeR_run h1 h2 h3]
    rfl
  · rfl

/-- Claim C4 (witness): concrete instance of the conversion equality. -/
theorem claim_C4_witness :
    analyze (fun _ _ => 0) ⟨some 50, some 10, some 0, some 0⟩ [⟨0, 0, 5⟩] =
      Except.ok (clusterStep (fun _ _ => 0) ((50 / 1000 : ℚ) / (6371.0088 : ℚ)) 10
        (dateFilter [⟨0, 0, 5⟩] (window ⟨some 50, some 10, some 0, some 0⟩))) ∧
    epsilon_rad 50 = ((50 : ℚ) / 1000) / (6371.0088 : ℚ) :=
  claim_C4 (fun _ _ => 0) ⟨some 50, some 10, some 0, some 0⟩ [⟨0, 0, 5⟩]
    (by norm_num [dateFilter, window, endAdjust, dayNs, secNs]) (by norm_num) (by norm_num)



/-- Claim C5: the statistics agree with the per-point output: `total` counts
the filtered points (= output points), `n_clusters` the distinct non-noise
labels, `noise` the points with the sentinel. -/
theorem claim_C5 (dist : Pt → Pt → ℚ) (p : Params) (store : List Record) (r : Output)
    (h : analyze dist p store = Except.ok r) :
    r.stats.total = (dateFilter store (window p)).length ∧
    r.stats.total = r.points.length ∧
    r.stats.n_clusters =
      ((r.points.map PointOut.cluster).filter fun x => decide (x ≠ -1)).toFinset.card ∧
    r.stats.noise = (r.points.map PointOut.cluster).count (-1) := by
  rw [analyze] at h
  rcases analyzeR_ok_cases h with ⟨hf, hr⟩ | ⟨hf, he, hm, hr⟩
  · subst hr
    simp [hf]
  · subst hr
    refine ⟨rfl, ?_, ?_, ?_⟩
    · rw [clusterStepR_points_length]
      rfl
    · rw [clusterStepR_points_cluster, distinct_nonsentinel_card]
      rfl
    · rw [clusterStepR_points_cluster]
      rfl

/-- Claim C5 (witness): a concrete one-record run: total = filtered count. -/
theorem claim_C5_witness :
    (Output.mk [PointOut.mk 0 0 0] (Stats.mk 1 1 0)).stats.total =
      (dateFilter [Record.mk 0 0 5] (window (Params.mk (some 50) (some 1) (some 0) (some 0)))).length :=
  (claim_C5 (fun _ _ => 0) (Params.mk (some 50) (some 1) (some 0) (some 0)) [Record.mk 0 0 5]
    (Output.mk [PointOut.mk 0 0 0] (Stats.mk 1 1 0))
    (by norm_num [analyze, analyzeR, clusterStepR, dbscanLabelsR, dbscanRun, nbhdOf, coreOf,
      outerR, expandR, dateFilter, window, idReorder, endAdjust, dayNs, secNs,
      kms_per_radian, List.range_succ])).1



/-- Claim C6: each filtered point gets exactly one label, every label is the
sentinel or a cluster id in `[0, n_clusters)`, and `n_clusters` is the number
of distinct non-sentinel labels. -/
theorem claim_C6 (dist : Pt → Pt → ℚ) (p : Params) (store : List Record) (r : Output)
    (heps : 0 ≤ p.epsilon.getD 50) (hmin : 1 ≤ p.minPoints.getD 10)
    (h : analyze dist p store = Except.ok r) :
    r.points.length = (dateFilter store (window p)).length ∧
    (∀ pt ∈ r.points, pt.cluster = -1 ∨
      (0 ≤ pt.cluster ∧ pt.cluster < (r.stats.n_clusters : ℤ))) ∧
    r.stats.n_clusters =
      ((r.points.map PointOut.cluster).filter fun x => decide (x ≠ -1)).toFinset.card := by
  rw [analyze] at h
  rcases analyzeR_ok_cases h with ⟨hf, hr⟩ | ⟨hf, he, hm, hr⟩
  · subst hr
    simp [hf]
  · subst hr
    have hρm : ∀ (v : ℕ) (l : List ℕ) (j : ℕ), j ∈ idReorder v l ↔ j ∈ l :=
      fun _ _ _ => Iff.rfl
    have hρl : ∀ (v : ℕ) (l : List ℕ), (idReorder v l).length = l.length := fun _ _ => rfl
    obtain ⟨m, hment, hmsurj, hmcard⟩ := dbscanLabelsR_clusters dist hρm hρl
      ((p.epsilon.getD 50 / 1000) / kms_per_radian) (p.minPoints.getD 10)
      ((dateFilter store (window p)).map fun rc => (rc.latitude, rc.longitude))
    have hnc : (clusterStepR dist idReorder ((p.epsilon.getD 50 / 1000) / kms_per_radian)
        (p.minPoints.getD 10) (dateFilter store (window p))).stats.n_clusters = m := hmcard
    refine ⟨clusterStepR_points_length dist idReorder _ _ _, ?_, ?_⟩
    · intro pt hpt
      have hmem : pt.cluster ∈ (clusterStepR dist idReorder
          ((p.epsilon.getD 50 / 1000) / kms_per_radian) (p.minPoints.getD 10)
          (dateFilter store (window p))).points.map PointOut.cluster :=
        List.mem_map_of_mem PointOut.cluster hpt
      rw [clusterStepR_points_cluster] at hmem
      have := hment pt.cluster hmem
      rw [hnc]
      exact this
    · rw [clusterStepR_points_cluster, distinct_nonsentinel_card]
      rfl

/-- Claim C6 (witness): label count on a concrete run. -/
theorem claim_C6_witness :
    (Output.mk [PointOut.mk 0 0 0] (Stats.mk 1 1 0)).points.length =
      (dateFilter [Record.mk 0 0 5]
        (window (Params.mk (some 50) (some 1) (some 0) (some 0)))).length :=
  (claim_C6 (fun _ _ => 0) (Params.mk (some 50) (some 1) (some 0) (some 0)) [Record.mk 0 0 5]
    (Output.mk [PointOut.mk 0 0 0] (Stats.mk 1 1 0))
    (by norm_num) (by norm_num)
    (by norm_num [analyze, analyzeR, clusterStepR, dbscanLabelsR, dbscanRun, nbhdOf, coreOf,
      outerR, expandR, dateFilter, window, idReorder, endAdjust, dayNs, secNs,
      kms_per_radian, List.range_succ])).1

/-- Claim C8: with `minSamples = 1`, a successful run has no noise: every
point is a core point of its own neighborhood. -/
theorem claim_C8 (dist : Pt → Pt → ℚ) (p : Params) (store : List Record) (r : Output)
    (hrefl : ∀ a, dist a a = 0)
    (hmin : p.minPoints.getD 10 = 1)
    (h : analyze dist p store = Except.ok r) :
    r.stats.noise = 0 ∧ ∀ pt ∈ r.points, pt.cluster ≠ -1 := by
  rw [analyze] at h
  rcases analyzeR_ok_cases h with ⟨hf, hr⟩ | ⟨hf, he, hm, hr⟩
  · subst hr
    simp
  · subst hr
    have hρm : ∀ (v : ℕ) (l : List ℕ) (j : ℕ), j ∈ idReorder v l ↔ j ∈ l :=
      fun _ _ _ => Iff.rfl
    have hρl : ∀ (v : ℕ) (l : List ℕ), (idReorder v l).length = l.length := fun _ _ => rfl
    have hkpr : (0 : ℚ) < kms_per_radian := by norm_num [kms_per_radian]
    have heps : 0 ≤ (p.epsilon.getD 50 / 1000) / kms_per_radian :=
      le_of_lt (div_pos (div_pos he (by norm_num)) hkpr)
    have hms : p.minPoints.getD 10 ≤ 1 := le_of_eq hmin
    have hz := dbscan_noise_zero dist hρm hρl hrefl heps hms
      ((dateFilter store (window p)).map fun rc => (rc.latitude, rc.longitude))
    constructor
    · exact hz
    · intro pt hpt
      have hmem : pt.cluster ∈ (clusterStepR dist idReorder
          ((p.epsilon.getD 50 / 1000) / kms_per_radian) (p.minPoints.getD 10)
          (dateFilter store (window p))).points.map PointOut.cluster :=
        List.mem_map_of_mem PointOut.cluster hpt
      rw [clusterStepR_points_cluster] at hmem
      intro hc
      rw [hc] at hmem
      exact List.count_eq_zero.mp hz hmem

/-- Claim C8 (witness): concrete run with minSamples 1 has zero noise. -/
theorem claim_C8_witness :
    (Output.mk [PointOut.mk 0 0 0] (Stats.mk 1 1 0)).stats.noise = 0 :=
  (claim_C8 (fun _ _ => 0) (Params.mk (some 50) (some 1) (some 0) (some 0)) [Record.mk 0 0 5]
    (Output.mk [PointOut.mk 0 0 0] (Stats.mk 1 1 0))
    (fun _ => rfl) rfl
    (by norm_num [analyze, analyzeR, clusterStepR, dbscanLabelsR, dbscanRun, nbhdOf, coreOf,
      outerR, expandR, dateFilter, window, idReorder, endAdjust, dayNs, secNs,
      kms_per_radian, List.range_succ])).1

/-- Claim C10 (implicit): the noise sentinel is exactly `-1`, and the cluster
ids present are exactly the consecutive integers `0 .. n_clusters - 1`. -/
theorem claim_C10 (dist : Pt → Pt → ℚ) (p : Params) (store : List Record) (r : Output)
    (h : analyze dist p store = Except.ok r) :
    (∀ pt ∈ r.points, pt.cluster = -1 ∨
      (0 ≤ pt.cluster ∧ pt.cluster < (r.stats.n_clusters : ℤ))) ∧
    (∀ c : ℤ, 0 ≤ c → c < (r.stats.n_clusters : ℤ) → ∃ pt ∈ r.points, pt.cluster = c) ∧
    r.stats.noise = (r.points.map PointOut.cluster).count (-1) := by
  rw [analyze] at h
  rcases analyzeR_ok_cases h with ⟨hf, hr⟩ | ⟨hf, he, hm, hr⟩
  · subst hr
    refine ⟨by simp, ?_, by simp⟩
    intro c hc0 hc1
    simp only [Nat.cast_zero] at hc1
    omega
  · subst hr
    have hρm : ∀ (v : ℕ) (l : List ℕ) (j : ℕ), j ∈ idReorder v l ↔ j ∈ l :=
      fun _ _ _ => Iff.rfl
    have hρl : ∀ (v : ℕ) (l : List ℕ), (idReorder v l).length = l.length := fun _ _ => rfl
    obtain ⟨m, hment, hmsurj, hmcard⟩ := dbscanLabelsR_clusters dist hρm hρl
      ((p.epsilon.getD 50 / 1000) / kms_per_radian) (p.minPoints.getD 10)
      ((dateFilter store (window p)).map fun rc => (rc.latitude, rc.longitude))
    have hnc : (clusterStepR dist idReorder ((p.epsilon.getD 50 / 1000) / kms_per_radian)
        (p.minPoints.getD 10) (dateFilter store (window p))).stats.n_clusters = m := hmcard
    refine ⟨?_, ?_, ?_⟩
    · intro pt hpt
      have hmem : pt.cluster ∈ (clusterStepR dist idReorder
          ((p.epsilon.getD 50 / 1000) / kms_per_radian) (p.minPoints.getD 10)
          (dateFilter store (window p))).points.map PointOut.cluster :=
        List.mem_map_of_mem PointOut.cluster hpt
      rw [clusterStepR_points_cluster] at hmem
      rw [hnc]
      exact hment pt.cluster hmem
    · intro c hc0 hc1
      rw [hnc] at hc1
      have hcm := hmsurj c hc0 hc1
      rw [← clusterStepR_points_cluster dist idReorder
        ((p.epsilon.getD 50 / 1000) / kms_per_radian) (p.minPoints.getD 10)
        (dateFilter store (window p))] at hcm
      obtain ⟨pt, hpt, hptc⟩ := List.mem_map.mp hcm
      exact ⟨pt, hpt, hptc⟩
    · rw [clusterStepR_points_cluster]
      rfl

/-- Claim C10 (witness): concrete run, noise equals the sentinel count. -/
theorem claim_C10_witness :
    (Output.mk [PointOut.mk 0 0 0] (Stats.mk 1 1 0)).stats.noise =
      ((Output.mk [PointOut.mk 0 0 0] (Stats.mk 1 1 0)).points.map PointOut.cluster).count
        (-1) :=
  (claim_C10 (fun _ _ => 0) (Params.mk (some 50) (some 1) (some 0) (some 0)) [Record.mk 0 0 5]
    (Output.mk [PointOut.mk 0 0 0] (Stats.mk 1 1 0))
    (by norm_num [analyze, analyzeR, clusterStepR, dbscanLabelsR, dbscanRun, nbhdOf, coreOf,
      outerR, expandR, dateFilter, window, idReorder, endAdjust, dayNs, secNs,
      kms_per_radian, List.range_succ])).2.2



/-- Claim C7: with the dataset, window and minSamples fixed, increasing the
epsilon radius never increases the reported noise count. -/
theorem claim_C7 (dist : Pt → Pt → ℚ) (p1 p2 : Params) (store : List Record)
    (r1 r2 : Output) (e1 e2 : ℚ)
    (he1 : p1.epsilon = some e1) (he2 : p2.epsilon = some e2)
    (hsd : p1.startDate = p2.startDate) (hed : p1.endDate = p2.endDate)
    (hmp : p1.minPoints = p2.minPoints)
    (hee : e1 ≤ e2)
    (h1 : analyze dist p1 store = Except.ok r1)
    (h2 : analyze dist p2 store = Except.ok r2) :
    r2.stats.noise ≤ r1.stats.noise := by
  have hw : window p1 = window p2 := by
    unfold window
    rw [hsd, hed]
  rw [analyze] at h1 h2
  rcases analyzeR_ok_cases h1 with ⟨hf1, hr1⟩ | ⟨hf1, hee1, hm1, hr1⟩
  · rcases analyzeR_ok_cases h2 with ⟨hf2, hr2⟩ | ⟨hf2, hee2, hm2, hr2⟩
    · subst hr1
      subst hr2
      exact le_refl 0
    · exfalso
      apply hf2
      rw [← hw]
      exact hf1
  · rcases analyzeR_ok_cases h2 with ⟨hf2, hr2⟩ | ⟨hf2, hee2, hm2, hr2⟩
    · exfalso
      apply hf1
      rw [hw]
      exact hf2
    · subst hr1
      subst hr2
      have hρm : ∀ (v : ℕ) (l : List ℕ) (j : ℕ), j ∈ idReorder v l ↔ j ∈ l :=
        fun _ _ _ => Iff.rfl
      have hρl : ∀ (v : ℕ) (l : List ℕ), (idReorder v l).length = l.length := fun _ _ => rfl
      have hrad : (p1.epsilon.getD 50 / 1000) / kms_per_radian ≤
          (p2.epsilon.getD 50 / 1000) / kms_per_radian := by
        rw [he1, he2]
        simp only [Option.getD_some]
        have hkpr : (0 : ℚ) < kms_per_radian := by norm_num [kms_per_radian]
        have h1000 : (0 : ℚ) < 1000 := by norm_num
        gcongr
      show (dbscanLabelsR dist idReorder ((p2.epsilon.getD 50 / 1000) / kms_per_radian)
          (p2.minPoints.getD 10)
          ((dateFilter store (window p2)).map fun rc => (rc.latitude, rc.longitude))).count
            (-1) ≤
        (dbscanLabelsR dist idReorder ((p1.epsilon.getD 50 / 1000) / kms_per_radian)
          (p1.minPoints.getD 10)
          ((dateFilter store (window p1)).map fun rc => (rc.latitude, rc.longitude))).count
            (-1)
      rw [← hw, ← hmp]
      exact dbscan_noise_mono hρm hρl hrad (p1.minPoints.getD 10) _

/-- Claim C7 (witness): concrete runs at radius 50 and 60 over one record. -/
theorem claim_C7_witness :
    (Output.mk [PointOut.mk 0 0 0] (Stats.mk 1 1 0)).stats.noise ≤
      (Output.mk [PointOut.mk 0 0 0] (Stats.mk 1 1 0)).stats.noise :=
  claim_C7 (fun _ _ => 0) (Params.mk (some 50) (some 1) (some 0) (some 0))
    (Params.mk (some 60) (some 1) (some 0) (some 0)) [Record.mk 0 0 5]
    (Output.mk [PointOut.mk 0 0 0] (Stats.mk 1 1 0))
    (Output.mk [PointOut.mk 0 0 0] (Stats.mk 1 1 0)) 50 60
    rfl rfl rfl rfl rfl (by norm_num)
    (by norm_num [analyze, analyzeR, clusterStepR, dbscanLabelsR, dbscanRun, nbhdOf, coreOf,
      outerR, expandR, dateFilter, window, idReorder, endAdjust, dayNs, secNs,
      kms_per_radian, List.range_succ])
    (by norm_num [analyze, analyzeR, clusterStepR, dbscanLabelsR, dbscanRun, nbhdOf, coreOf,
      outerR, expandR, dateFilter, window, idReorder, endAdjust, dayNs, secNs,
      kms_per_radian, List.range_succ])



/-- Claim C9: `analyze` is deterministic.  The run is a pure function of the
parameters and the record store, and its output does not even depend on the
internal traversal order of the neighbor frontier: any two membership- and
length-preserving frontier orders give identical output (the program's own
order is `idReorder`). -/
theorem claim_C9 (dist : Pt → Pt → ℚ) (ρ1 ρ2 : ℕ → List ℕ → List ℕ)
    (hρm1 : ∀ v l j, j ∈ ρ1 v l ↔ j ∈ l)
    (hρl1 : ∀ v l, (ρ1 v l).length = l.length)
    (hρm2 : ∀ v l j, j ∈ ρ2 v l ↔ j ∈ l)
    (hρl2 : ∀ v l, (ρ2 v l).length = l.length)
    (p : Params) (store : List Record) :
    analyzeR dist ρ1 p store = analyzeR dist ρ2 p store := by
  have hlbl : ∀ (eps : ℚ) (minS : ℤ) (pts : List Pt),
      dbscanLabelsR dist ρ1 eps minS pts = dbscanLabelsR dist ρ2 eps minS pts := by
    intro eps minS pts
    rw [dbscanLabelsR, dbscanLabelsR, dbscanRun, dbscanRun]
    have hfuel : (pts.length + 1) * pts.length + 1 ≤
        pts.length * pts.length + pts.length + 1 := by
      have : (pts.length + 1) * pts.length = pts.length * pts.length + pts.length := by ring
      omega
    rw [outerR_congr hρm1 hρl1 hρm2 hρl2 (fun v j hj => nbhdOf_lt hj)
      (nbhdOf_length_le dist pts eps) hfuel (List.range pts.length) (fun _ => -1) 0
      (fun i hi => List.mem_range.mp hi)
      (fun j hj => absurd rfl hj)
      (fun v _ _ hv => absurd rfl hv)
      (fun j => Or.inl rfl)
      (fun c hc0 hc1 => absurd (lt_of_le_of_lt hc0 hc1) (lt_irrefl 0))
      (le_refl 0)]
  rw [analyzeR, analyzeR]
  by_cases hf : (dateFilter store (window p)).length = 0
  · rw [if_pos hf, if_pos hf]
  · rw [if_neg hf, if_neg hf]
    by_cases hval : p.epsilon.getD 50 ≤ 0 ∨ p.minPoints.getD 10 < 1
    · rw [if_pos hval, if_pos hval]
    · rw [if_neg hval, if_neg hval, clusterStepR, clusterStepR, hlbl]

/-- Claim C9 (witness): identity order versus reversed frontier order on a
concrete input. -/
theorem claim_C9_witness :
    analyzeR (fun _ _ => 0) idReorder (Params.mk (some 50) (some 1) (some 0) (some 0))
      [Record.mk 0 0 5] =
    analyzeR (fun _ _ => 0) (fun _ l => l.reverse)
      (Params.mk (some 50) (some 1) (some 0) (some 0)) [Record.mk 0 0 5] :=
  claim_C9 (fun _ _ => 0) idReorder (fun _ l => l.reverse)
    (fun _ _ _ => Iff.rfl) (fun _ _ => rfl)
    (fun v l j => List.mem_reverse) (fun v l => List.length_reverse l)
    (Params.mk (some 50) (some 1) (some 0) (some 0)) [Record.mk 0 0 5]

end AccidentClusters
